import Mathlib

/-!
Shallow embedding of the coverage-similarity pipeline of
`fuzzers/baby_fuzzer_palpebratum/hmms/pipeline/coverage/` (measures.py,
coverage_calculation.py, hmms.py).  Python floats are modelled as rationals,
Python lists as Lean lists, and fallible operations (numpy shape errors,
`ZeroDivisionError`, `IndexError`, fitting exceptions) as `Option`.
-/

namespace LibAFLCov

/-- Embedding of `measures.normalize`.  The Python code prepends a synthetic
`0.0`, takes min/max of the prepended list (so `min` is `min 0 (min curve)`,
which is exactly `foldr min 0 curve`), returns `[0.0] ++ [1.0]*len` when
`min == max`, and otherwise min-max normalizes `curve[1:]`, i.e. the original
curve without the synthetic leading element. -/
def normalize (curve : List ℚ) : List ℚ :=
  let mn := curve.foldr min 0
  let mx := curve.foldr max 0
  if mn = mx then 0 :: curve.map (fun _ => 1)
  else curve.map (fun x => (x - mn) / (mx - mn))

/-- The `i`-th entry of `np.gradient` of a 1-D array: second-order central
difference in the interior, one-sided differences at the two boundaries. -/
def gradAt (l : List ℚ) (i : ℕ) : ℚ :=
  if i = 0 then l.getD 1 0 - l.getD 0 0
  else if i = l.length - 1 then
    l.getD (l.length - 1) 0 - l.getD (l.length - 2) 0
  else (l.getD (i + 1) 0 - l.getD (i - 1) 0) / 2

/-- Embedding of `np.gradient` on a 1-D array.  `np.gradient` raises a
`ValueError` on arrays with fewer than 2 elements, modelled as `none`. -/
def npGradient (l : List ℚ) : Option (List ℚ) :=
  if 2 ≤ l.length then some ((List.range l.length).map (gradAt l)) else none

/-- The event-index extraction inside `calculate_coverage_similarity`:
`[i for i in range(n) if gradient[i] > 0]`. -/
def eventIdx (g : List ℚ) (n : ℕ) : List ℕ :=
  (List.range n).filter (fun i => decide (0 < g.getD i 0))

/-- Growth-event extraction for a single trace: the indices of the strictly
positive entries of `np.gradient` of the trace. -/
def extractEvents (c : List ℚ) : Option (List ℕ) :=
  (npGradient c).map (fun g => eventIdx g g.length)

/-- A candidate match `(a, b, |a - b|)` between a fuzzer event index `a` and an
hmm event index `b`. -/
abbrev Cand := ℕ × ℕ × ℕ

/-- The inner loop of the candidate generation in
`calculate_coverage_similarity`: iterate over the hmm event indices, `continue`
when `a > b + w`, `break` when `a + w < b`, otherwise append
`(a, b, |a - b|)`. -/
def innerCands (a w : ℕ) : List ℕ → List Cand
  | [] => []
  | b :: t =>
    if b + w < a then innerCands a w t
    else if a + w < b then []
    else (a, b, Nat.dist a b) :: innerCands a w t

/-- The full candidate generation: outer loop over the fuzzer event indices. -/
def genCands (As Bs : List ℕ) (w : ℕ) : List Cand :=
  As.flatMap (fun a => innerCands a w Bs)

/-- Swapping the two sides of a candidate. -/
def sw (c : Cand) : Cand := (c.2.1, c.1, c.2.2)

/-- Two candidates conflict when they share an endpoint on either side. -/
def conflict (x y : Cand) : Prop := x.1 = y.1 ∨ x.2.1 = y.2.1

instance (x y : Cand) : Decidable (conflict x y) := by
  unfold conflict; infer_instance

/-- Comparison of candidates by distance only, the key of the Python
`sorted(possible_matches, key=lambda x: x[2])`. -/
def dle (x y : Cand) : Prop := x.2.2 ≤ y.2.2

instance : DecidableRel dle := fun x y => Nat.decLe x.2.2 y.2.2

/-- The greedy matching loop: walk the distance-sorted candidates, accept a
candidate when both endpoints are still unmatched, removing them from the
unmatched lists (`list.remove` removes the first occurrence, i.e.
`List.erase`).  Returns the accepted matches and the two final unmatched
lists. -/
def greedy : List Cand → List ℕ → List ℕ → List Cand × List ℕ × List ℕ
  | [], uf, uh => ([], uf, uh)
  | c :: rest, uf, uh =>
    if c.1 ∈ uf ∧ c.2.1 ∈ uh then
      let r := greedy rest (uf.erase c.1) (uh.erase c.2.1)
      (c :: r.1, r.2)
    else greedy rest uf uh

/-- Per-match score contribution:
`((a - b) / w)^2 + (gradF[a] - gradH[b])^2`. -/
def matchTerm (gf gh : List ℚ) (w : ℕ) (m : Cand) : ℚ :=
  (((m.1 : ℚ) - (m.2.1 : ℚ)) / (w : ℚ)) ^ 2 +
    (gf.getD m.1 0 - gh.getD m.2.1 0) ^ 2

/-- Embedding of `measures.calculate_coverage_similarity`.  `none` models the
Python exceptions: `np.gradient` on a list with fewer than 2 elements
(`ValueError`), the per-match division by `max_distance = 0`
(`ZeroDivisionError`, raised at the first accepted match), and the final
division by `2 * number_indices` when there are no events on either side
(`ZeroDivisionError`). -/
def calculate_coverage_similarity (fuzzer hmm : List ℚ) (w : ℕ) : Option ℚ :=
  match npGradient (normalize fuzzer), npGradient (normalize hmm) with
  | some gf, some gh =>
    let n := min gf.length gh.length
    let Ef := eventIdx gf n
    let Eh := eventIdx gh n
    let nIdx := Ef.length + Eh.length
    let srt := List.insertionSort dle (genCands Ef Eh w)
    let res := greedy srt Ef Eh
    if w = 0 ∧ res.1 ≠ [] then none
    else if nIdx = 0 then none
    else some (((res.1.map (matchTerm gf gh w)).sum
      + 2 * res.2.1.length + 2 * res.2.2.length) / (2 * nIdx))
  | _, _ => none

/-- A single `coverage[idx] = 1` store with the Python `IndexError` on an
index beyond the end of the list (state values are modelled as naturals, so
no negative-index wraparound arises). -/
def setOnce (cov : List ℕ) (idx : ℕ) : Option (List ℕ) :=
  if idx < cov.length then some (cov.set idx 1) else none

/-- Sequential execution of the stores of the `generate_coverage_map` loop;
a raised `IndexError` aborts the remaining iterations. -/
def applySets (cov : List ℕ) : List ℕ → Option (List ℕ)
  | [] => some cov
  | i :: rest =>
    match setOnce cov i with
    | some cov' => applySets cov' rest
    | none => none

/-- The flat indices `nodes[i]*N + nodes[i+1]` of the consecutive pairs of a
decoded state path. -/
def edgeIndices (nodes : List ℕ) (N : ℕ) : List ℕ :=
  List.zipWith (fun s d => s * N + d) nodes nodes.tail

/-- Embedding of `coverage_calculation.generate_coverage_map` (the decoded
state path is taken directly; the `viterbi_res` unpacking is an external
concern). -/
def generate_coverage_map (nodes : List ℕ) (N : ℕ) : Option (List ℕ) :=
  applySets (List.replicate (N * N) 0) (edgeIndices nodes N)

/-- Number of set bits of a coverage bitmap. -/
def popcount (l : List Bool) : ℕ := l.countP id

/-- The aggregation loop of `calculate_coverage`: or the next bitmap into the
cumulative one and append `popcount(cumulative) / N^2` to the trace. -/
def accGo (N : ℕ) : List (List Bool) → List Bool → List Bool × List ℚ
  | [], cum => (cum, [])
  | b :: rest, cum =>
    let cum' := List.zipWith or cum b
    let r := accGo N rest cum'
    (r.1, ((popcount cum' : ℚ) / ((N * N : ℕ) : ℚ)) :: r.2)

/-- Embedding of the aggregation loop of `calculate_coverage`, starting from
the all-zero cumulative bitmap (the per-sequence decoding and
`generate_coverage_map` calls that produce the bitmaps are the caller's
side). -/
def accumulate (N : ℕ) (bitmaps : List (List Bool)) : List Bool × List ℚ :=
  accGo N bitmaps (List.replicate (N * N) false)

/-- Cumulative or of a list of bitmaps starting from the all-zero bitmap. -/
def orAll (N : ℕ) (bitmaps : List (List Bool)) : List Bool :=
  bitmaps.foldl (fun cum b => List.zipWith or cum b) (List.replicate (N * N) false)

/-- The retry loop of `hmms.create_model`: `fuel` is the remaining attempt
budget, `i` the current round number.  `fit k i` models one call of the
external randomized fitting routine with `k` requested content states in
round `i`; `none` models a raised exception (of either caught class). -/
def createModelLoop {α : Type} (fit : ℤ → ℕ → Option α) (bake : α → α)
    (n_component : ℤ) : ℕ → ℕ → Option α
  | 0, _ => none
  | fuel + 1, i =>
    match fit (n_component - 2) i with
    | some m => some (bake m)
    | none => createModelLoop fit bake n_component fuel (i + 1)

/-- Embedding of `hmms.create_model`: retry the external fitting routine up to
`threshold` times, requesting `n_component - 2` content states; on the first
success finalize the model with `bake` (`model.bake()`); if every attempt
fails, return the `None` sentinel. -/
def create_model {α : Type} (fit : ℤ → ℕ → Option α) (bake : α → α)
    (n_component : ℤ) (threshold : ℕ) : Option α :=
  createModelLoop fit bake n_component threshold 0

/-! ### Helper lemmas about the min/max folds used by `normalize` -/

theorem foldr_min_le_init (l : List ℚ) (a : ℚ) : l.foldr min a ≤ a := by
  induction l with
  | nil => exact le_rfl
  | cons x t ih => exact le_trans (min_le_right _ _) ih

theorem le_foldr_max_init (l : List ℚ) (a : ℚ) : a ≤ l.foldr max a := by
  induction l with
  | nil => exact le_rfl
  | cons x t ih => exact le_trans ih (le_max_right _ _)

theorem foldr_min_le_mem {l : List ℚ} {x : ℚ} (h : x ∈ l) (a : ℚ) :
    l.foldr min a ≤ x := by
  induction l with
  | nil => cases h
  | cons y t ih =>
    rcases List.mem_cons.1 h with h' | h'
    · exact h' ▸ min_le_left _ _
    · exact le_trans (min_le_right _ _) (ih h')

theorem mem_le_foldr_max {l : List ℚ} {x : ℚ} (h : x ∈ l) (a : ℚ) :
    x ≤ l.foldr max a := by
  induction l with
  | nil => cases h
  | cons y t ih =>
    rcases List.mem_cons.1 h with h' | h'
    · exact h' ▸ le_max_left _ _
    · exact le_trans (ih h') (le_max_right _ _)

theorem le_foldr_min {l : List ℚ} {a c : ℚ} (h1 : c ≤ a) (h2 : ∀ x ∈ l, c ≤ x) :
    c ≤ l.foldr min a := by
  induction l with
  | nil => exact h1
  | cons y t ih =>
    refine le_min (h2 y (List.mem_cons_self y t)) (ih ?_)
    exact fun x hx => h2 x (List.mem_cons_of_mem _ hx)

theorem foldr_min_replicate {L : ℕ} {v : ℚ} (hv : 0 ≤ v) :
    (List.replicate L v).foldr min 0 = 0 := by
  induction L with
  | zero => rfl
  | succ n ih => simp [List.replicate_succ, ih, min_eq_right hv]

theorem foldr_max_replicate {L : ℕ} {v : ℚ} (hL : 1 ≤ L) (hv : 0 ≤ v) :
    (List.replicate L v).foldr max 0 = v := by
  induction L with
  | zero => omega
  | succ n ih =>
    rcases Nat.eq_zero_or_pos n with hn | hn
    · subst hn; simp [List.replicate_succ, max_eq_left hv]
    · simp [List.replicate_succ, ih hn, max_self]

theorem foldr_min_replicate_neg {L : ℕ} {v : ℚ} (hL : 1 ≤ L) (hv : v ≤ 0) :
    (List.replicate L v).foldr min 0 = v := by
  induction L with
  | zero => omega
  | succ n ih =>
    rcases Nat.eq_zero_or_pos n with hn | hn
    · subst hn; simp [List.replicate_succ, min_eq_left hv]
    · simp [List.replicate_succ, ih hn, min_self]

theorem foldr_max_replicate_neg {L : ℕ} {v : ℚ} (hv : v ≤ 0) :
    (List.replicate L v).foldr max 0 = 0 := by
  induction L with
  | zero => rfl
  | succ n ih => simp [List.replicate_succ, ih, max_eq_right hv]

/-- A flat positive curve: `normalize` returns all `1`s of the input length. -/
theorem normalize_replicate_pos {L : ℕ} {v : ℚ} (hL : 1 ≤ L) (hv : 0 < v) :
    normalize (List.replicate L v) = List.replicate L 1 := by
  unfold normalize
  rw [foldr_min_replicate hv.le, foldr_max_replicate hL hv.le, if_neg hv.ne]
  rw [List.map_replicate]
  congr 1
  simp only [sub_zero]
  exact div_self hv.ne'

/-- The all-zero flat curve: the only flat curve taking the `min == max`
branch. -/
theorem normalize_replicate_zero (L : ℕ) :
    normalize (List.replicate L (0 : ℚ)) = 0 :: List.replicate L 1 := by
  unfold normalize
  rw [foldr_min_replicate le_rfl, foldr_max_replicate_neg le_rfl]
  simp [List.map_replicate]

/-- A flat negative curve: `normalize` returns all `0`s of the input length. -/
theorem normalize_replicate_neg {L : ℕ} {v : ℚ} (hL : 1 ≤ L) (hv : v < 0) :
    normalize (List.replicate L v) = List.replicate L 0 := by
  unfold normalize
  rw [foldr_min_replicate_neg hL hv.le, foldr_max_replicate_neg hv.le,
    if_neg hv.ne]
  rw [List.map_replicate]
  congr 1
  rw [sub_self, zero_div]

/-- C1: the claim `normalize [5,5,5] = [0.0, 1.0, 1.0, 1.0]` is false on the
code: after prepending the synthetic `0.0` the minimum is `0`, not `5`, so the
`min == max` branch is not taken and the synthetic element is dropped by
`curve[1:]`; the result is `[1.0, 1.0, 1.0]`. -/
theorem C1_counterexample :
    normalize [5, 5, 5] = [1, 1, 1] ∧ normalize [5, 5, 5] ≠ [0, 1, 1, 1] := by
  constructor
  · norm_num [normalize]
  · intro h
    have : (normalize [5, 5, 5]).length = 4 := by rw [h]; rfl
    norm_num [normalize] at this

/-- C1 (amended): a flat curve of nonzero (e.g. positive) value `v` does not
take the degenerate branch: `normalize` returns `1.0` at every one of its `L`
positions (the synthetic leading `0.0` is dropped).  The claimed
`[0.0, 1.0, ..., 1.0]` shape of length `L+1` occurs exactly for the all-zero
flat curve. -/
theorem C1_flat_normalize :
    (∀ (L : ℕ) (v : ℚ), 1 ≤ L → 0 < v →
      normalize (List.replicate L v) = List.replicate L 1) ∧
    (∀ L : ℕ, normalize (List.replicate L 0) = 0 :: List.replicate L 1) :=
  ⟨fun _ _ hL hv => normalize_replicate_pos hL hv, normalize_replicate_zero⟩

/-- C1 witness: the amended flat-curve behavior at the concrete input
`[5,5,5]`. -/
theorem C1_witness : normalize (List.replicate 3 (5 : ℚ)) = List.replicate 3 1 :=
  C1_flat_normalize.1 3 5 (by norm_num) (by norm_num)

/-- C3: the claim fails on the code for strictly increasing curves starting
above `0`: for `[1,2,3]` the synthetic leading `0.0` becomes the minimum, the
first output element is `1/3`, not `0.0`. -/
theorem C3_counterexample :
    List.Chain' (· < ·) [(1 : ℚ), 2, 3] ∧
      (normalize [(1 : ℚ), 2, 3]).head? ≠ some 0 := by
  constructor
  · norm_num
  · norm_num [normalize]

/-- C3 (amended): `normalize` always returns values in `[0,1]`; the first
output element is exactly `0.0` for a strictly increasing curve whose first
element is at most `0` (for a strictly increasing curve starting above `0`
the first output element is positive, since the prepended synthetic `0.0`
becomes the minimum). -/
theorem C3_normalize_range_and_head :
    (∀ (curve : List ℚ) (x : ℚ), x ∈ normalize curve → 0 ≤ x ∧ x ≤ 1) ∧
    (∀ (c₀ : ℚ) (rest : List ℚ), c₀ ≤ 0 → List.Chain' (· < ·) (c₀ :: rest) →
      (normalize (c₀ :: rest)).head? = some 0) := by
  constructor
  · intro curve x hx
    unfold normalize at hx
    by_cases hdeg : curve.foldr min 0 = curve.foldr max 0
    · rw [if_pos hdeg] at hx
      rcases List.mem_cons.1 hx with h | h
      · subst h; norm_num
      · rcases List.mem_map.1 h with ⟨y, _, hy⟩
        subst hy; norm_num
    · rw [if_neg hdeg] at hx
      rcases List.mem_map.1 hx with ⟨y, hy, hxy⟩
      subst hxy
      have hmn : curve.foldr min 0 ≤ y := foldr_min_le_mem hy 0
      have hmx : y ≤ curve.foldr max 0 := mem_le_foldr_max hy 0
      have hlt : curve.foldr min 0 < curve.foldr max 0 :=
        lt_of_le_of_ne
          (le_trans (foldr_min_le_init curve 0) (le_foldr_max_init curve 0)) hdeg
      have hpos : (0 : ℚ) < curve.foldr max 0 - curve.foldr min 0 :=
        sub_pos.2 hlt
      constructor
      · exact div_nonneg (sub_nonneg.2 hmn) hpos.le
      · rw [div_le_one hpos]
        exact sub_le_sub_right hmx _
  · intro c₀ rest hc₀ hchain
    have hpair : List.Pairwise (· < ·) (c₀ :: rest) :=
      List.chain'_iff_pairwise.1 hchain
    have hrest : ∀ x ∈ rest, c₀ < x := (List.pairwise_cons.1 hpair).1
    have hmn : (c₀ :: rest).foldr min 0 = c₀ := by
      show min c₀ (rest.foldr min 0) = c₀
      exact min_eq_left (le_foldr_min hc₀ (fun x hx => (hrest x hx).le))
    unfold normalize
    by_cases hdeg : (c₀ :: rest).foldr min 0 = (c₀ :: rest).foldr max 0
    · rw [if_pos hdeg]; rfl
    · rw [if_neg hdeg]
      show some _ = some 0
      rw [hmn]
      simp [sub_self]

/-- C3 witness: the amended statement at the concrete strictly increasing
curve `[0,1,2]` starting at `0`. -/
theorem C3_witness : (normalize [(0 : ℚ), 1, 2]).head? = some 0 :=
  C3_normalize_range_and_head.2 0 [1, 2] le_rfl (by norm_num)

/-! ### Helper lemmas about `npGradient` and `eventIdx` -/

theorem getD_range_map (f : ℕ → ℚ) {n i : ℕ} (h : i < n) :
    ((List.range n).map f).getD i 0 = f i := by
  rw [List.getD_eq_getElem?_getD, List.getElem?_map, List.getElem?_range h]
  rfl

theorem npGradient_eq {c : List ℚ} (h : 2 ≤ c.length) :
    npGradient c = some ((List.range c.length).map (gradAt c)) := by
  unfold npGradient
  rw [if_pos h]

theorem length_of_npGradient {c g : List ℚ} (h : npGradient c = some g) :
    g.length = c.length := by
  unfold npGradient at h
  by_cases h2 : 2 ≤ c.length
  · rw [if_pos h2] at h
    cases h
    simp
  · rw [if_neg h2] at h
    cases h

theorem getD_of_npGradient {c g : List ℚ} (h : npGradient c = some g)
    {i : ℕ} (hi : i < c.length) : g.getD i 0 = gradAt c i := by
  unfold npGradient at h
  by_cases h2 : 2 ≤ c.length
  · rw [if_pos h2] at h
    cases h
    exact getD_range_map _ hi
  · rw [if_neg h2] at h
    cases h

theorem mem_eventIdx {g : List ℚ} {n i : ℕ} :
    i ∈ eventIdx g n ↔ i < n ∧ 0 < g.getD i 0 := by
  simp [eventIdx, List.mem_filter, List.mem_range]

/-- C4: the claim is false on the code: event extraction uses `np.gradient`
(central differences), not the forward difference.  The normalized trace
`[0, 1/2, 1]` of length `3` has strictly positive central gradient at all 3
indices, so it yields 3 events, more than `L - 1 = 2`. -/
theorem C4_counterexample :
    extractEvents [0, (1 : ℚ)/2, 1] = some [0, 1, 2] ∧
      ¬ (([0, 1, 2] : List ℕ).length ≤ ([0, (1 : ℚ)/2, 1] : List ℚ).length - 1) := by
  constructor
  · simp [extractEvents, npGradient, eventIdx, gradAt, List.range_succ]
    norm_num
  · norm_num

/-- C4 (amended): an index `i` of a trace of length `L ≥ 2` is a growth event
iff the `np.gradient` central difference at `i` is strictly positive: at
`i = 0` iff `c[0] < c[1]`, at interior `i` iff `c[i-1] < c[i+1]`, and at
`i = L-1` iff `c[L-2] < c[L-1]`; a trace of length `L` yields at most `L`
events (not `L - 1`). -/
theorem C4_events_central_difference (c : List ℚ) (h : 2 ≤ c.length) :
    ∃ E, extractEvents c = some E ∧ E.length ≤ c.length ∧
      ∀ i, i ∈ E ↔
        (i = 0 ∧ c.getD 0 0 < c.getD 1 0) ∨
        (0 < i ∧ i + 1 < c.length ∧ c.getD (i - 1) 0 < c.getD (i + 1) 0) ∨
        (i = c.length - 1 ∧ 1 ≤ i ∧
          c.getD (c.length - 2) 0 < c.getD (c.length - 1) 0) := by
  have hnp := npGradient_eq h
  set g := (List.range c.length).map (gradAt c) with hg
  have hlen : g.length = c.length := length_of_npGradient hnp
  refine ⟨eventIdx g g.length, ?_, ?_, ?_⟩
  · rw [extractEvents, hnp]
    rfl
  · calc (eventIdx g g.length).length ≤ (List.range g.length).length :=
          List.length_filter_le _ _
      _ = c.length := by rw [List.length_range, hlen]
  · intro i
    rw [mem_eventIdx, hlen]
    constructor
    · rintro ⟨hi, hpos⟩
      rw [getD_of_npGradient hnp hi] at hpos
      unfold gradAt at hpos
      by_cases hi0 : i = 0
      · subst hi0
        rw [if_pos rfl] at hpos
        exact Or.inl ⟨rfl, sub_pos.1 hpos⟩
      · by_cases hiL : i = c.length - 1
        · rw [if_neg hi0, if_pos hiL] at hpos
          exact Or.inr (Or.inr ⟨hiL, by omega, sub_pos.1 hpos⟩)
        · rw [if_neg hi0, if_neg hiL] at hpos
          rw [lt_div_iff₀ (by norm_num : (0:ℚ) < 2), zero_mul] at hpos
          exact Or.inr (Or.inl ⟨by omega, by omega, sub_pos.1 hpos⟩)
    · intro hcase
      have hi : i < c.length := by
        rcases hcase with ⟨h0, _⟩ | ⟨_, h1, _⟩ | ⟨hL, _, _⟩ <;> omega
      refine ⟨hi, ?_⟩
      rw [getD_of_npGradient hnp hi]
      unfold gradAt
      rcases hcase with ⟨h0, hlt⟩ | ⟨h1, h2, hlt⟩ | ⟨hL, h1, hlt⟩
      · subst h0
        rw [if_pos rfl]
        exact sub_pos.2 hlt
      · rw [if_neg (by omega), if_neg (by omega)]
        rw [lt_div_iff₀ (by norm_num : (0:ℚ) < 2), zero_mul]
        exact sub_pos.2 hlt
      · rw [if_neg (by omega), if_pos hL]
        exact sub_pos.2 hlt

/-- C4 witness: the amended characterization evaluated at the concrete
normalized trace `[0, 1/2, 1]`. -/
theorem C4_witness :
    ∃ E, extractEvents [0, (1 : ℚ)/2, 1] = some E ∧
      E.length ≤ ([0, (1 : ℚ)/2, 1] : List ℚ).length ∧
      ∀ i, i ∈ E ↔
        (i = 0 ∧ ([0, (1 : ℚ)/2, 1] : List ℚ).getD 0 0 < ([0, (1 : ℚ)/2, 1] : List ℚ).getD 1 0) ∨
        (0 < i ∧ i + 1 < ([0, (1 : ℚ)/2, 1] : List ℚ).length ∧
          ([0, (1 : ℚ)/2, 1] : List ℚ).getD (i - 1) 0 < ([0, (1 : ℚ)/2, 1] : List ℚ).getD (i + 1) 0) ∨
        (i = ([0, (1 : ℚ)/2, 1] : List ℚ).length - 1 ∧ 1 ≤ i ∧
          ([0, (1 : ℚ)/2, 1] : List ℚ).getD (([0, (1 : ℚ)/2, 1] : List ℚ).length - 2) 0 <
            ([0, (1 : ℚ)/2, 1] : List ℚ).getD (([0, (1 : ℚ)/2, 1] : List ℚ).length - 1) 0) :=
  C4_events_central_difference [0, (1 : ℚ)/2, 1] (by norm_num)

theorem getD_replicate {n i : ℕ} {a d : ℚ} (h : i < n) :
    (List.replicate n a).getD i d = a := by
  rw [List.getD_eq_getElem?_getD]
  simp [List.getElem?_replicate, h]

theorem getD_replicate_zero (m i : ℕ) :
    (List.replicate m (0 : ℚ)).getD i 0 = 0 := by
  by_cases h : i < m
  · exact getD_replicate h
  · exact List.getD_eq_default _ _ (by simpa using Nat.le_of_not_lt h)

/-- `np.gradient` of a constant list is the all-zero list. -/
theorem npGradient_replicate {L : ℕ} {cst : ℚ} (h : 2 ≤ L) :
    npGradient (List.replicate L cst) = some (List.replicate L 0) := by
  rw [npGradient, if_pos (by simpa using h)]
  congr 1
  have hgrad : ∀ i ∈ List.range (List.replicate L cst).length,
      gradAt (List.replicate L cst) i = (fun _ => (0 : ℚ)) i := by
    intro i hi
    rw [List.length_replicate, List.mem_range] at hi
    unfold gradAt
    rw [List.length_replicate]
    by_cases hi0 : i = 0
    · rw [if_pos hi0, getD_replicate (by omega), getD_replicate (by omega),
        sub_self]
    · by_cases hiL : i = L - 1
      · rw [if_neg hi0, if_pos hiL, getD_replicate (by omega),
          getD_replicate (by omega), sub_self]
      · rw [if_neg hi0, if_neg hiL, getD_replicate (by omega),
          getD_replicate (by omega), sub_self, zero_div]
  rw [List.map_congr_left hgrad, List.map_const']
  simp

theorem eventIdx_replicate_zero (m n : ℕ) :
    eventIdx (List.replicate m (0 : ℚ)) n = [] := by
  rw [eventIdx, List.filter_eq_nil_iff]
  intro i _
  rw [getD_replicate_zero]
  simp

/-- C2: the claim is false on the code: for the flat pair `[5,5]`, `[5,5]`
(zero growth events on both sides after normalization) the final
`score / (2 * number_indices)` division raises `ZeroDivisionError`; no `0.0`
is returned. -/
theorem C2_counterexample :
    calculate_coverage_similarity [5, 5] [5, 5] 5 = none := by
  have hrep : ([5, 5] : List ℚ) = List.replicate 2 5 := rfl
  rw [hrep, calculate_coverage_similarity,
    normalize_replicate_pos (by norm_num) (by norm_num),
    npGradient_replicate (by norm_num)]
  have he : eventIdx [0, 0] 2 = [] := by decide
  simp [eventIdx_replicate_zero, he, genCands, greedy]

/-- C2 (amended): for every pair of flat nonzero curves (length ≥ 2), both
normalized curves are constant, there are zero growth events on both sides,
and `score` fails with a `ZeroDivisionError` (returns no value) instead of
`0.0`.  (Only the all-zero flat curve gains synthetic growth events from the
degenerate normalization branch and escapes the division by zero.) -/
theorem C2_flat_nonzero_score (La Lb w : ℕ) (va vb : ℚ)
    (hLa : 2 ≤ La) (hLb : 2 ≤ Lb) (hva : va ≠ 0) (hvb : vb ≠ 0) :
    calculate_coverage_similarity
      (List.replicate La va) (List.replicate Lb vb) w = none := by
  obtain ⟨ca, hna⟩ : ∃ c, normalize (List.replicate La va) = List.replicate La c := by
    rcases hva.lt_or_lt with h | h
    · exact ⟨0, normalize_replicate_neg (by omega) h⟩
    · exact ⟨1, normalize_replicate_pos (by omega) h⟩
  obtain ⟨cb, hnb⟩ : ∃ c, normalize (List.replicate Lb vb) = List.replicate Lb c := by
    rcases hvb.lt_or_lt with h | h
    · exact ⟨0, normalize_replicate_neg (by omega) h⟩
    · exact ⟨1, normalize_replicate_pos (by omega) h⟩
  rw [calculate_coverage_similarity, hna, hnb, npGradient_replicate hLa,
    npGradient_replicate hLb]
  simp [eventIdx_replicate_zero, genCands, greedy]

/-- C2 witness: the amended division-by-zero behavior at the concrete flat
pair `[7,7,7]`, `[3,3]` with the default window. -/
theorem C2_witness :
    calculate_coverage_similarity [(7 : ℚ), 7, 7] [(3 : ℚ), 3] 5 = none := by
  have h := C2_flat_nonzero_score 3 2 5 7 3 (by norm_num) (by norm_num)
    (by norm_num) (by norm_num)
  simpa using h

/-! ### Helper lemmas for the coverage aggregation loop -/

theorem accGo_trace_length (N : ℕ) (bs : List (List Bool)) (cum : List Bool) :
    (accGo N bs cum).2.length = bs.length := by
  induction bs generalizing cum with
  | nil => rfl
  | cons b rest ih => simp [accGo, ih]

theorem accGo_trace_getD (N : ℕ) (bs : List (List Bool)) (cum : List Bool) :
    ∀ i < bs.length, (accGo N bs cum).2.getD i 0 =
      ((popcount ((bs.take (i + 1)).foldl
        (fun c b => List.zipWith or c b) cum) : ℕ) : ℚ) / ((N * N : ℕ) : ℚ) := by
  induction bs generalizing cum with
  | nil => intro i hi; cases hi
  | cons b rest ih =>
    intro i hi
    cases i with
    | zero => simp [accGo]
    | succ j =>
      have hj : j < rest.length := by simpa using hi
      calc (accGo N (b :: rest) cum).2.getD (j + 1) 0
          = (accGo N rest (List.zipWith or cum b)).2.getD j 0 := by
            simp [accGo, List.getD_cons_succ]
        _ = _ := by
            rw [ih (List.zipWith or cum b) j hj]
            rfl

theorem popcount_le_zipWith_or (x y : List Bool) (h : x.length ≤ y.length) :
    popcount x ≤ popcount (List.zipWith or x y) := by
  induction x generalizing y with
  | nil => simp [popcount]
  | cons a xs ih =>
    cases y with
    | nil => simp at h
    | cons c ys =>
      have hlen : xs.length ≤ ys.length := by simpa using h
      have := ih ys hlen
      cases a <;> cases c <;>
        simp [popcount, List.zipWith_cons_cons, List.countP_cons] at this ⊢ <;>
        omega

theorem cast_div_mono {a b : ℕ} (D : ℕ) (h : a ≤ b) :
    ((a : ℕ) : ℚ) / ((D : ℕ) : ℚ) ≤ ((b : ℕ) : ℚ) / ((D : ℕ) : ℚ) := by
  rcases Nat.eq_zero_or_pos D with h0 | h0
  · simp [h0]
  · have hD : (0 : ℚ) < (D : ℚ) := by exact_mod_cast h0
    have hab : ((a : ℕ) : ℚ) ≤ ((b : ℕ) : ℚ) := by exact_mod_cast h
    exact (div_le_div_iff_of_pos_right hD).2 hab

theorem accGo_chain (N : ℕ) (bs : List (List Bool)) (cum : List Bool)
    (hcum : cum.length = N * N) (hbs : ∀ b ∈ bs, b.length = N * N) :
    List.Chain' (· ≤ ·) (accGo N bs cum).2 ∧
    ∀ x ∈ ((accGo N bs cum).2).head?,
      ((popcount cum : ℕ) : ℚ) / ((N * N : ℕ) : ℚ) ≤ x := by
  induction bs generalizing cum with
  | nil => exact ⟨List.chain'_nil, by simp [accGo]⟩
  | cons b rest ih =>
    have hb : b.length = N * N := hbs b (List.mem_cons_self b rest)
    have hcum' : (List.zipWith or cum b).length = N * N := by
      simp [List.length_zipWith, hcum, hb]
    have hrest : ∀ x ∈ rest, x.length = N * N :=
      fun x hx => hbs x (List.mem_cons_of_mem _ hx)
    obtain ⟨ihchain, ihhead⟩ := ih (List.zipWith or cum b) hcum' hrest
    constructor
    · show List.Chain' (· ≤ ·) (_ :: (accGo N rest (List.zipWith or cum b)).2)
      rw [List.chain'_cons']
      exact ⟨ihhead, ihchain⟩
    · intro x hx
      simp only [accGo, List.head?_cons, Option.mem_def, Option.some_inj] at hx
      subst hx
      exact cast_div_mono (N * N)
        (popcount_le_zipWith_or cum b (by rw [hcum, hb]))

/-- C7: the aggregation loop of `calculate_coverage` produces a trace of the
same length as the bitmap list, non-decreasing in input order, whose `i`-th
element is `popcount` of the cumulative or of the first `i+1` bitmaps divided
by `N^2`. -/
theorem C7_accumulate (N : ℕ) (bitmaps : List (List Bool))
    (h : ∀ b ∈ bitmaps, b.length = N * N) :
    (accumulate N bitmaps).2.length = bitmaps.length ∧
    List.Chain' (· ≤ ·) (accumulate N bitmaps).2 ∧
    ∀ i < bitmaps.length,
      (accumulate N bitmaps).2.getD i 0 =
        ((popcount (orAll N (bitmaps.take (i + 1))) : ℕ) : ℚ) / ((N * N : ℕ) : ℚ) := by
  refine ⟨accGo_trace_length N bitmaps _, ?_, ?_⟩
  · exact (accGo_chain N bitmaps _ (by simp) h).1
  · intro i hi
    exact accGo_trace_getD N bitmaps _ i hi

/-- C7 witness: the aggregation loop at the spec's concrete example, three
4-bit bitmaps over `N = 2` giving the trace `[1/4, 1/2, 1/2]`. -/
theorem C7_witness :
    (accumulate 2 [[true, false, false, false], [false, true, false, false],
      [true, false, false, false]]).2.length = 3 ∧
    List.Chain' (· ≤ ·) (accumulate 2 [[true, false, false, false],
      [false, true, false, false], [true, false, false, false]]).2 ∧
    ∀ i < ([[true, false, false, false], [false, true, false, false],
      [true, false, false, false]] : List (List Bool)).length,
      (accumulate 2 [[true, false, false, false], [false, true, false, false],
        [true, false, false, false]]).2.getD i 0 =
        ((popcount (orAll 2 (([[true, false, false, false],
          [false, true, false, false],
          [true, false, false, false]] : List (List Bool)).take (i + 1))) : ℕ) : ℚ)
          / ((2 * 2 : ℕ) : ℚ) := by
  have h := C7_accumulate 2 [[true, false, false, false],
    [false, true, false, false], [true, false, false, false]] (by decide)
  simpa using h

/-! ### Helper lemmas for the coverage map builder -/

theorem edgeIndices_cons₂ (s d : ℕ) (rest : List ℕ) (N : ℕ) :
    edgeIndices (s :: d :: rest) N = (s * N + d) :: edgeIndices (d :: rest) N :=
  rfl

theorem edgeIndices_lt (nodes : List ℕ) (N : ℕ) (h : ∀ s ∈ nodes, s < N) :
    ∀ e ∈ edgeIndices nodes N, e < N * N := by
  induction nodes with
  | nil => intro e he; cases he
  | cons s rest ih =>
    cases rest with
    | nil => intro e he; cases he
    | cons d rest' =>
      intro e he
      rw [edgeIndices_cons₂] at he
      rcases List.mem_cons.1 he with he' | he'
      · subst he'
        have hs : s < N := h s (List.mem_cons_self _ _)
        have hd : d < N := h d (List.mem_cons_of_mem _ (List.mem_cons_self _ _))
        calc s * N + d < s * N + N := by omega
          _ = (s + 1) * N := by ring
          _ ≤ N * N := Nat.mul_le_mul_right N hs
      · exact ih (fun x hx => h x (List.mem_cons_of_mem _ hx)) e he'

theorem length_edgeIndices (nodes : List ℕ) (N : ℕ) :
    (edgeIndices nodes N).length = nodes.length - 1 := by
  rw [edgeIndices, List.length_zipWith, List.length_tail]
  omega

theorem countP_set_one_le (cov : List ℕ) (i : ℕ) :
    ((cov.set i 1).countP (fun x => decide (x ≠ 0))) ≤
      cov.countP (fun x => decide (x ≠ 0)) + 1 := by
  induction cov generalizing i with
  | nil => simp
  | cons c t ih =>
    cases i with
    | zero => simp [List.countP_cons]
    | succ j =>
      have := ih j
      simp only [List.set, List.countP_cons]
      omega

theorem applySets_some (cov : List ℕ) (idxs : List ℕ)
    (h : ∀ i ∈ idxs, i < cov.length) :
    ∃ cov', applySets cov idxs = some cov' ∧ cov'.length = cov.length ∧
      cov'.countP (fun x => decide (x ≠ 0)) ≤
        cov.countP (fun x => decide (x ≠ 0)) + idxs.length := by
  induction idxs generalizing cov with
  | nil => exact ⟨cov, rfl, rfl, by simp⟩
  | cons i rest ih =>
    have hi : i < cov.length := h i (List.mem_cons_self _ _)
    have hrest : ∀ j ∈ rest, j < (cov.set i 1).length := by
      intro j hj
      rw [List.length_set]
      exact h j (List.mem_cons_of_mem _ hj)
    obtain ⟨cov', heq, hlen, hcount⟩ := ih (cov.set i 1) hrest
    refine ⟨cov', ?_, ?_, ?_⟩
    · show (match setOnce cov i with
        | some cov' => applySets cov' rest
        | none => none) = some cov'
      rw [setOnce, if_pos hi]
      exact heq
    · rw [hlen, List.length_set]
    · calc cov'.countP (fun x => decide (x ≠ 0))
          ≤ (cov.set i 1).countP (fun x => decide (x ≠ 0)) + rest.length := hcount
        _ ≤ cov.countP (fun x => decide (x ≠ 0)) + 1 + rest.length :=
            Nat.add_le_add_right (countP_set_one_le cov i) _
        _ = cov.countP (fun x => decide (x ≠ 0)) + (i :: rest).length := by
            rw [List.length_cons]; omega

theorem applySets_eq_none_iff (cov : List ℕ) (idxs : List ℕ) :
    applySets cov idxs = none ↔ ∃ i ∈ idxs, cov.length ≤ i := by
  induction idxs generalizing cov with
  | nil => simp [applySets]
  | cons i rest ih =>
    show (match setOnce cov i with
      | some cov' => applySets cov' rest
      | none => none) = none ↔ _
    rw [setOnce]
    by_cases hi : i < cov.length
    · rw [if_pos hi]
      rw [ih (cov.set i 1)]
      simp only [List.length_set, List.mem_cons]
      constructor
      · rintro ⟨j, hj, hle⟩
        exact ⟨j, Or.inr hj, hle⟩
      · rintro ⟨j, hj | hj, hle⟩
        · subst hj; omega
        · exact ⟨j, hj, hle⟩
    · rw [if_neg hi]
      simp only [true_iff]
      exact ⟨i, List.mem_cons_self _ _, by omega⟩

theorem countP_replicate_zero (m : ℕ) :
    (List.replicate m (0 : ℕ)).countP (fun x => decide (x ≠ 0)) = 0 := by
  induction m with
  | zero => rfl
  | succ k ih => simp [List.replicate_succ, List.countP_cons, ih]

/-- C8: for every in-range decoded path, `generate_coverage_map` succeeds,
sets at most `L - 1` bits of the `N^2`-length bitmap (all-zero when
`L ≤ 1`), and on the concrete path `[0,1,2,1]` with `N = 3` sets exactly the
bits `1`, `5` and `7`. -/
theorem C8_generate_coverage_map (nodes : List ℕ) (N : ℕ)
    (h : ∀ s ∈ nodes, s < N) :
    (∃ cov, generate_coverage_map nodes N = some cov ∧
      cov.countP (fun x => decide (x ≠ 0)) ≤ nodes.length - 1 ∧
      cov.length = N * N ∧
      (nodes.length ≤ 1 → cov = List.replicate (N * N) 0)) ∧
    generate_coverage_map [0, 1, 2, 1] 3 = some [0, 1, 0, 0, 0, 1, 0, 1, 0] := by
  constructor
  · have hbound : ∀ i ∈ edgeIndices nodes N,
        i < (List.replicate (N * N) (0 : ℕ)).length := by
      intro i hi
      rw [List.length_replicate]
      exact edgeIndices_lt nodes N h i hi
    obtain ⟨cov, heq, hlen, hcount⟩ :=
      applySets_some (List.replicate (N * N) 0) (edgeIndices nodes N) hbound
    refine ⟨cov, heq, ?_, by rw [hlen, List.length_replicate], ?_⟩
    · calc cov.countP (fun x => decide (x ≠ 0))
          ≤ (List.replicate (N * N) 0).countP (fun x => decide (x ≠ 0)) +
              (edgeIndices nodes N).length := hcount
        _ = nodes.length - 1 := by
            rw [countP_replicate_zero, length_edgeIndices, Nat.zero_add]
    · intro hL
      have hemp : edgeIndices nodes N = [] := by
        match nodes, hL with
        | [], _ => rfl
        | [s], _ => rfl
      rw [hemp] at heq
      have : some (List.replicate (N * N) (0 : ℕ)) = some cov := heq
      cases this
      rfl
  · decide

/-- C8 witness: the in-range path `[0,1,2,1]` with `N = 3`. -/
theorem C8_witness :
    (∃ cov, generate_coverage_map [0, 1, 2, 1] 3 = some cov ∧
      cov.countP (fun x => decide (x ≠ 0)) ≤ ([0, 1, 2, 1] : List ℕ).length - 1 ∧
      cov.length = 3 * 3 ∧
      (([0, 1, 2, 1] : List ℕ).length ≤ 1 → cov = List.replicate (3 * 3) 0)) ∧
    generate_coverage_map [0, 1, 2, 1] 3 = some [0, 1, 0, 0, 0, 1, 0, 1, 0] :=
  C8_generate_coverage_map [0, 1, 2, 1] 3 (by decide)

/-- C10: the claim is false on the code: the path `[0, 5]` with `N = 3`
contains the out-of-range state `5`, yet the flat index `0*3 + 5 = 5` is
inside the `9`-element bitmap, so no index error is raised and a bitmap with
the unrelated bit `5` set is produced. -/
theorem C10_counterexample :
    ¬ ((5 : ℕ) < 3) ∧
      generate_coverage_map [0, 5] 3 = some [0, 0, 0, 0, 0, 1, 0, 0, 0] := by
  decide

/-- C10 (amended): `generate_coverage_map` fails with an index error iff some
consecutive pair's flat index `src*N + dst` is at least `N^2`; an
out-of-range state whose flat index happens to fall below `N^2` silently sets
a bit belonging to a different edge instead of failing. -/
theorem C10_gcm_error_iff (nodes : List ℕ) (N : ℕ) :
    generate_coverage_map nodes N = none ↔
      ∃ e ∈ edgeIndices nodes N, N * N ≤ e := by
  unfold generate_coverage_map
  rw [applySets_eq_none_iff, List.length_replicate]

/-! ### The model construction supervisor -/

theorem createModelLoop_none {α : Type} (fit : ℤ → ℕ → Option α) (bake : α → α)
    (n : ℤ) (fuel i : ℕ)
    (h : ∀ j, i ≤ j → j < i + fuel → fit (n - 2) j = none) :
    createModelLoop fit bake n fuel i = none := by
  induction fuel generalizing i with
  | zero => rfl
  | succ f ih =>
    show (match fit (n - 2) i with
      | some m => some (bake m)
      | none => createModelLoop fit bake n f (i + 1)) = none
    rw [h i le_rfl (by omega)]
    exact ih (i + 1) (fun j hj hj' => h j (by omega) (by omega))

theorem createModelLoop_some {α : Type} (fit : ℤ → ℕ → Option α) (bake : α → α)
    (n : ℤ) (fuel i i₀ : ℕ) (m : α)
    (h1 : i ≤ i₀) (h2 : i₀ < i + fuel) (h3 : fit (n - 2) i₀ = some m)
    (h4 : ∀ j, i ≤ j → j < i₀ → fit (n - 2) j = none) :
    createModelLoop fit bake n fuel i = some (bake m) := by
  induction fuel generalizing i with
  | zero => omega
  | succ f ih =>
    show (match fit (n - 2) i with
      | some m => some (bake m)
      | none => createModelLoop fit bake n f (i + 1)) = some (bake m)
    rcases Nat.eq_or_lt_of_le h1 with heq | hlt
    · rw [heq, h3]
    · rw [h4 i le_rfl hlt]
      exact ih (i + 1) hlt (by omega) (fun j hj hj' => h4 j (by omega) hj')

/-- C9: `create_model` requests exactly `n_component - 2` content states from
the fitting routine; it consults only rounds `0 .. threshold - 1`, stops at
the first attempt that completes without exception and returns the baked
(finalized) model; when every attempt within the budget fails, it returns the
`None` sentinel without propagating any fitting exception (exceptions of both
caught classes are modelled as `none` results of the fitting oracle). -/
theorem C9_create_model {α : Type} (fit : ℤ → ℕ → Option α) (bake : α → α)
    (n_component : ℤ) (threshold : ℕ) :
    (∀ i₀ m, i₀ < threshold → fit (n_component - 2) i₀ = some m →
      (∀ j < i₀, fit (n_component - 2) j = none) →
      create_model fit bake n_component threshold = some (bake m)) ∧
    ((∀ j < threshold, fit (n_component - 2) j = none) →
      create_model fit bake n_component threshold = none) := by
  constructor
  · intro i₀ m hi₀ hm hfail
    exact createModelLoop_some fit bake n_component threshold 0 i₀ m
      (Nat.zero_le _) (by omega) hm (fun j _ hj => hfail j hj)
  · intro hfail
    exact createModelLoop_none fit bake n_component threshold 0
      (fun j _ hj => hfail j (by omega))

/-- C9 witness: a concrete oracle failing in round `0` and succeeding in
round `1` with `target_state_count = 5` (so `3` content states requested) and
budget `20`. -/
theorem C9_witness :
    create_model (fun k i => if k = 3 ∧ i = 1 then some ((37 : ℤ), k) else none)
      (fun m => m) 5 20 = some (37, 3) :=
  (C9_create_model (fun k i => if k = 3 ∧ i = 1 then some ((37 : ℤ), k) else none)
    (fun m => m) 5 20).1 1 (37, 3) (by norm_num) (by norm_num) (by decide)

/-! ### Structure of the candidate lists and the greedy matcher -/

instance : IsTotal Cand dle := ⟨fun x y => Nat.le_total x.2.2 y.2.2⟩

instance : IsTrans Cand dle := ⟨fun _ _ _ h1 h2 => Nat.le_trans h1 h2⟩

theorem pairwise_lt_eventIdx (g : List ℚ) (n : ℕ) :
    (eventIdx g n).Pairwise (· < ·) :=
  (List.pairwise_lt_range n).filter _

theorem nodup_eventIdx (g : List ℚ) (n : ℕ) : (eventIdx g n).Nodup :=
  (pairwise_lt_eventIdx g n).imp Nat.ne_of_lt

/-- In the inner candidate loop over a strictly ascending index list, the
candidates of distance `0` are exactly the self-pair, present iff the outer
index occurs in the list. -/
theorem filter_d0_innerCands (a w : ℕ) (Bs : List ℕ)
    (h : Bs.Pairwise (· < ·)) :
    (innerCands a w Bs).filter (fun x => decide (x.2.2 = 0)) =
      if a ∈ Bs then [(a, a, 0)] else [] := by
  induction Bs with
  | nil => simp [innerCands]
  | cons b t ih =>
    have hpair := (List.pairwise_cons.1 h).1
    have htail := (List.pairwise_cons.1 h).2
    rw [innerCands]
    by_cases h1 : b + w < a
    · rw [if_pos h1]
      have hab : a ≠ b := by omega
      rw [ih htail]
      by_cases hmem : a ∈ t
      · rw [if_pos hmem, if_pos (List.mem_cons_of_mem _ hmem)]
      · rw [if_neg hmem, if_neg (by simp [hab, hmem])]
    · rw [if_neg h1]
      by_cases h2 : a + w < b
      · rw [if_pos h2]
        have hab : a ∉ b :: t := by
          intro hmem
          rcases List.mem_cons.1 hmem with rfl | hmem'
          · omega
          · exact absurd (hpair a hmem') (by omega)
        rw [if_neg hab]
        rfl
      · rw [if_neg h2]
        by_cases hab : a = b
        · subst hab
          have hnot : a ∉ t := fun hmem => absurd (hpair a hmem) (lt_irrefl a)
          rw [List.filter_cons_of_pos (by simp [Nat.dist_self]), ih htail,
            if_neg hnot, if_pos (List.mem_cons_self _ _)]
          simp [Nat.dist_self]
        · have hd : Nat.dist a b ≠ 0 := by
            intro h0
            exact hab (Nat.eq_of_dist_eq_zero h0)
          rw [List.filter_cons_of_neg (by simpa using hd), ih htail]
          by_cases hmem : a ∈ t
          · rw [if_pos hmem, if_pos (List.mem_cons_of_mem _ hmem)]
          · rw [if_neg hmem,
              if_neg (by rw [List.mem_cons]; push_neg; exact ⟨hab, hmem⟩)]

/-- The distance-`0` candidates of the self-comparison candidate list are
exactly the diagonal pairs of the event list. -/
theorem filter_d0_genCands_self (E : List ℕ) (w : ℕ)
    (hE : E.Pairwise (· < ·)) :
    (genCands E E w).filter (fun x => decide (x.2.2 = 0)) =
      E.map (fun e => (e, e, 0)) := by
  have main : ∀ As : List ℕ, (∀ a ∈ As, a ∈ E) →
      (As.flatMap (fun a => innerCands a w E)).filter
        (fun x => decide (x.2.2 = 0)) = As.map (fun e => (e, e, 0)) := by
    intro As
    induction As with
    | nil => intro _; rfl
    | cons a t ih =>
      intro hsub
      rw [List.flatMap_cons, List.filter_append,
        filter_d0_innerCands a w E hE,
        if_pos (hsub a (List.mem_cons_self _ _)),
        ih (fun x hx => hsub x (List.mem_cons_of_mem _ hx))]
      rfl
  exact main E (fun _ hx => hx)

/-- A `dle`-sorted candidate list is its distance-`0` part followed by its
positive-distance part. -/
theorem sorted_d0_split (l : List Cand) (h : l.Pairwise dle) :
    l = l.filter (fun x => decide (x.2.2 = 0)) ++
      l.filter (fun x => ¬ x.2.2 = 0) := by
  induction l with
  | nil => rfl
  | cons c t ih =>
    have hpair := (List.pairwise_cons.1 h).1
    have htail := (List.pairwise_cons.1 h).2
    by_cases hc : c.2.2 = 0
    · rw [List.filter_cons_of_pos (by simp [hc]),
        List.filter_cons_of_neg (by simp [hc])]
      rw [List.cons_append]
      congr 1
      exact ih htail
    · have hz : t.filter (fun x => decide (x.2.2 = 0)) = [] := by
        rw [List.filter_eq_nil_iff]
        intro x hx
        have := hpair x hx
        simp only [dle] at this
        simp
        omega
      rw [List.filter_cons_of_neg (by simp [hc]),
        List.filter_cons_of_pos (by simp [hc]), hz, List.nil_append]
      have := ih htail
      rw [hz, List.nil_append] at this
      exact congrArg (fun l => c :: l) this

/-- Splitting a greedy run over an append of candidate lists. -/
theorem greedy_append (P Q : List Cand) (uf uh : List ℕ) :
    greedy (P ++ Q) uf uh =
      ((greedy P uf uh).1 ++
        (greedy Q (greedy P uf uh).2.1 (greedy P uf uh).2.2).1,
       (greedy Q (greedy P uf uh).2.1 (greedy P uf uh).2.2).2) := by
  induction P generalizing uf uh with
  | nil => rfl
  | cons c t ih =>
    rw [List.cons_append, greedy, greedy]
    by_cases hc : c.1 ∈ uf ∧ c.2.1 ∈ uh
    · rw [if_pos hc, if_pos hc]
      simp only [ih]
      rw [List.cons_append]
    · rw [if_neg hc, if_neg hc]
      exact ih uf uh

/-- With no unmatched indices left, greedy accepts nothing. -/
theorem greedy_nil_unmatched (Q : List Cand) : greedy Q [] [] = ([], [], []) := by
  induction Q with
  | nil => rfl
  | cons c t ih =>
    rw [greedy, if_neg (by simp)]
    exact ih

/-- A list of diagonal candidates whose left components enumerate a
duplicate-free index list is fully accepted by greedy, consuming all indices
on both sides. -/
theorem greedy_diag (P : List Cand) (uf : List ℕ)
    (hdiag : ∀ x ∈ P, x = (x.1, x.1, 0))
    (hperm : (P.map (fun x => x.1)).Perm uf)
    (hnd : uf.Nodup) :
    greedy P uf uf = (P, [], []) := by
  induction P generalizing uf with
  | nil =>
    have huf : uf = [] := (List.Perm.eq_nil hperm.symm)
    subst huf
    rfl
  | cons c t ih =>
    have he : c.1 ∈ uf := hperm.mem_iff.1 (by simp)
    have h21 : c.2.1 = c.1 := by
      have := hdiag c (List.mem_cons_self _ _)
      rw [this]
    have hpermt : (t.map (fun x => x.1)).Perm (uf.erase c.1) := by
      have : (c.1 :: t.map (fun x => x.1)).Perm uf := by simpa using hperm
      exact (List.cons_perm_iff_perm_erase.1 this).2
    rw [greedy, if_pos ⟨he, h21 ▸ he⟩, h21]
    rw [ih (uf.erase c.1) (fun x hx => hdiag x (List.mem_cons_of_mem _ hx))
      hpermt (hnd.erase c.1)]

/-- C6: for every curve whose normalization has at least one growth event and
every positive window, `score(A, A) = 0.0`: every event matches itself at
distance `0` (the zero-distance candidates sort first and are all accepted by
the greedy matcher), gradients coincide, and no event is left unmatched. -/
theorem C6_self_score (A : List ℚ) (w : ℕ) (hw : 1 ≤ w)
    (hE : ∃ E, extractEvents (normalize A) = some E ∧ E ≠ []) :
    calculate_coverage_similarity A A w = some 0 := by
  obtain ⟨E, hEx, hne⟩ := hE
  rw [extractEvents] at hEx
  rcases hnp : npGradient (normalize A) with _ | g
  · rw [hnp] at hEx; cases hEx
  · rw [hnp] at hEx
    have hEdef : eventIdx g g.length = E := Option.some_inj.1 hEx
    unfold calculate_coverage_similarity
    rw [hnp]
    dsimp only
    simp only [min_self]
    set M := eventIdx g g.length with hMdef
    set srt := List.insertionSort dle (genCands M M w) with hsrtdef
    have hMlt : M.Pairwise (· < ·) := pairwise_lt_eventIdx g g.length
    have hMnd : M.Nodup := nodup_eventIdx g g.length
    have hMne : M ≠ [] := by rw [hEdef]; exact hne
    have hsorted : srt.Pairwise dle := List.sorted_insertionSort dle _
    have hsplit : srt = srt.filter (fun x => decide (x.2.2 = 0)) ++
        srt.filter (fun x => ¬ x.2.2 = 0) := sorted_d0_split srt hsorted
    set P := srt.filter (fun x => decide (x.2.2 = 0)) with hPdef
    have hPperm : P.Perm (M.map (fun e => (e, e, 0))) := by
      have h1 : P.Perm ((genCands M M w).filter (fun x => decide (x.2.2 = 0))) :=
        (List.perm_insertionSort dle (genCands M M w)).filter _
      rw [filter_d0_genCands_self M w hMlt] at h1
      exact h1
    have hdiag : ∀ x ∈ P, x = (x.1, x.1, 0) := by
      intro x hx
      obtain ⟨e, _, hxe⟩ := List.mem_map.1 (hPperm.mem_iff.1 hx)
      rw [← hxe]
    have hmap1 : (P.map (fun x => x.1)).Perm M := by
      have h := hPperm.map (fun x : Cand => x.1)
      rw [List.map_map] at h
      have hco : ((fun x : Cand => x.1) ∘ fun e : ℕ => ((e, e, 0) : Cand)) =
          fun e : ℕ => e := by
        funext e
        rfl
      rw [hco] at h
      simpa using h
    have hgreedy : greedy srt M M = (P, [], []) := by
      conv_lhs => rw [hsplit]
      rw [greedy_append, greedy_diag P M hdiag hmap1 hMnd]
      rw [greedy_nil_unmatched]
      simp
    rw [hgreedy]
    have hlen : M.length ≠ 0 := by
      intro h0
      exact hMne (List.eq_nil_of_length_eq_zero h0)
    rw [if_neg (by rintro ⟨h0, _⟩; omega)]
    rw [if_neg (by omega)]
    have hsum : (P.map (matchTerm g g w)).sum = 0 := by
      apply List.sum_eq_zero
      intro x hx
      obtain ⟨m, hm, hxm⟩ := List.mem_map.1 hx
      rw [← hxm, hdiag m hm]
      simp [matchTerm, sub_self]
    rw [hsum]
    simp

/-- C6 witness: the self-comparison at the concrete curve `[0,1]`, whose
normalization `[0,1]` has the growth events `{0, 1}`, with the default
window `5`. -/
theorem C6_witness : calculate_coverage_similarity [(0 : ℚ), 1] [(0 : ℚ), 1] 5 = some 0 :=
  C6_self_score [0, 1] 5 (by norm_num)
    ⟨[0, 1], by simp [extractEvents, normalize, npGradient, eventIdx, gradAt,
      List.range_succ], by simp⟩

/-! ### Generic list order utilities -/

theorem sublist_pair_total {α : Type} {x y : α} {l : List α}
    (hx : x ∈ l) (hy : y ∈ l) (hne : x ≠ y) :
    [x, y].Sublist l ∨ [y, x].Sublist l := by
  induction l with
  | nil => cases hx
  | cons a t ih =>
    rcases List.mem_cons.1 hx with rfl | hx'
    · have hy' : y ∈ t := by
        rcases List.mem_cons.1 hy with h | h
        · exact absurd h.symm hne
        · exact h
      exact Or.inl ((List.singleton_sublist.2 hy').cons₂ x)
    · rcases List.mem_cons.1 hy with rfl | hy'
      · exact Or.inr ((List.singleton_sublist.2 hx').cons₂ y)
      · rcases ih hx' hy' with h | h
        · exact Or.inl (h.cons a)
        · exact Or.inr (h.cons a)

theorem not_pair_sublist_both {α : Type} {x y : α} {l : List α}
    (hnd : l.Nodup) (hne : x ≠ y)
    (h1 : [x, y].Sublist l) (h2 : [y, x].Sublist l) : False := by
  induction l with
  | nil => cases h1
  | cons a t ih =>
    have ha : a ∉ t := (List.nodup_cons.1 hnd).1
    have ht : t.Nodup := (List.nodup_cons.1 hnd).2
    cases h1 with
    | cons _ h1' =>
      cases h2 with
      | cons _ h2' => exact ih ht h1' h2'
      | cons₂ h2' =>
        exact ha (h1'.subset (List.mem_cons_of_mem _ (List.mem_cons_self _ _)))
    | cons₂ h1' =>
      cases h2 with
      | cons _ h2' =>
        exact ha (h2'.subset (List.mem_cons_of_mem _ (List.mem_cons_self _ _)))
      | cons₂ h2' => exact hne rfl

theorem rel_of_pair_sublist {α : Type} {R : α → α → Prop} {x y : α}
    {l : List α} (hp : l.Pairwise R) (h : [x, y].Sublist l) : R x y := by
  have hpair : ([x, y] : List α).Pairwise R := hp.sublist h
  exact (List.pairwise_cons.1 hpair).1 y (List.mem_cons_self _ _)

/-! ### Commutation properties of the greedy matcher -/

/-- Equivalence of greedy results: same matches up to order, same unmatched
lists. -/
def gEquiv (r₁ r₂ : List Cand × List ℕ × List ℕ) : Prop :=
  r₁.1.Perm r₂.1 ∧ r₁.2 = r₂.2

theorem gEquiv_refl (r : List Cand × List ℕ × List ℕ) : gEquiv r r :=
  ⟨List.Perm.refl _, rfl⟩

theorem gEquiv_symm {r₁ r₂ : List Cand × List ℕ × List ℕ}
    (h : gEquiv r₁ r₂) : gEquiv r₂ r₁ :=
  ⟨h.1.symm, h.2.symm⟩

theorem gEquiv_trans {r₁ r₂ r₃ : List Cand × List ℕ × List ℕ}
    (h1 : gEquiv r₁ r₂) (h2 : gEquiv r₂ r₃) : gEquiv r₁ r₃ :=
  ⟨h1.1.trans h2.1, h1.2.trans h2.2⟩

theorem conflict_symm {x y : Cand} (h : conflict x y) : conflict y x := by
  rcases h with h | h
  · exact Or.inl h.symm
  · exact Or.inr h.symm

theorem greedy_cons (c : Cand) (rest : List Cand) (uf uh : List ℕ) :
    greedy (c :: rest) uf uh =
      if c.1 ∈ uf ∧ c.2.1 ∈ uh then
        (c :: (greedy rest (uf.erase c.1) (uh.erase c.2.1)).1,
          (greedy rest (uf.erase c.1) (uh.erase c.2.1)).2)
      else greedy rest uf uh := rfl

/-- Two adjacent non-conflicting candidates can be processed in either order:
the accepted matches agree up to order and the unmatched lists agree. -/
theorem greedy_swap_adjacent (x y : Cand) (l : List Cand) (uf uh : List ℕ)
    (hnc : ¬ conflict x y) :
    gEquiv (greedy (x :: y :: l) uf uh) (greedy (y :: x :: l) uf uh) := by
  have hxy1 : x.1 ≠ y.1 := fun h => hnc (Or.inl h)
  have hxy2 : x.2.1 ≠ y.2.1 := fun h => hnc (Or.inr h)
  by_cases hx : x.1 ∈ uf ∧ x.2.1 ∈ uh <;>
    by_cases hy : y.1 ∈ uf ∧ y.2.1 ∈ uh
  · -- both acceptable: both get accepted, in both orders
    have hyx : y.1 ∈ uf.erase x.1 ∧ y.2.1 ∈ uh.erase x.2.1 :=
      ⟨(List.mem_erase_of_ne (Ne.symm hxy1)).2 hy.1,
       (List.mem_erase_of_ne (Ne.symm hxy2)).2 hy.2⟩
    have hxy : x.1 ∈ uf.erase y.1 ∧ x.2.1 ∈ uh.erase y.2.1 :=
      ⟨(List.mem_erase_of_ne hxy1).2 hx.1,
       (List.mem_erase_of_ne hxy2).2 hx.2⟩
    rw [greedy_cons, if_pos hx, greedy_cons, if_pos hyx,
      greedy_cons, if_pos hy, greedy_cons, if_pos hxy]
    rw [List.erase_comm x.1 y.1 uf, List.erase_comm x.2.1 y.2.1 uh]
    exact ⟨List.Perm.swap y x _, rfl⟩
  · -- only x acceptable
    have hyx : ¬ (y.1 ∈ uf.erase x.1 ∧ y.2.1 ∈ uh.erase x.2.1) := by
      intro hcon
      exact hy ⟨(List.mem_erase_of_ne (Ne.symm hxy1)).1 hcon.1,
        (List.mem_erase_of_ne (Ne.symm hxy2)).1 hcon.2⟩
    rw [greedy_cons, if_pos hx, greedy_cons, if_neg hyx,
      greedy_cons, if_neg hy, greedy_cons, if_pos hx]
    exact gEquiv_refl _
  · -- only y acceptable
    have hxy : ¬ (x.1 ∈ uf.erase y.1 ∧ x.2.1 ∈ uh.erase y.2.1) := by
      intro hcon
      exact hx ⟨(List.mem_erase_of_ne hxy1).1 hcon.1,
        (List.mem_erase_of_ne hxy2).1 hcon.2⟩
    rw [greedy_cons, if_neg hx, greedy_cons, if_pos hy,
      greedy_cons, if_pos hy, greedy_cons, if_neg hxy]
    exact gEquiv_refl _
  · -- neither acceptable
    rw [greedy_cons, if_neg hx, greedy_cons, if_neg hy,
      greedy_cons, if_neg hy, greedy_cons, if_neg hx]
    exact gEquiv_refl _

theorem greedy_cons_congr (p : Cand) (l₁ l₂ : List Cand)
    (h : ∀ uf uh, gEquiv (greedy l₁ uf uh) (greedy l₂ uf uh))
    (uf uh : List ℕ) :
    gEquiv (greedy (p :: l₁) uf uh) (greedy (p :: l₂) uf uh) := by
  rw [greedy_cons, greedy_cons]
  by_cases hp : p.1 ∈ uf ∧ p.2.1 ∈ uh
  · rw [if_pos hp, if_pos hp]
    obtain ⟨hperm, heq⟩ := h (uf.erase p.1) (uh.erase p.2.1)
    exact ⟨hperm.cons p, heq⟩
  · rw [if_neg hp, if_neg hp]
    exact h uf uh

/-- A candidate that conflicts with nothing before it can be bubbled to the
front of the greedy run. -/
theorem greedy_bubble (x : Cand) :
    ∀ (pre : List Cand) (post : List Cand) (uf uh : List ℕ),
      (∀ y ∈ pre, ¬ conflict x y) →
      gEquiv (greedy (pre ++ x :: post) uf uh)
        (greedy (x :: (pre ++ post)) uf uh) := by
  intro pre
  induction pre with
  | nil => intro post uf uh _; exact gEquiv_refl _
  | cons p pre' ih =>
    intro post uf uh h
    have step1 : gEquiv (greedy (p :: (pre' ++ x :: post)) uf uh)
        (greedy (p :: (x :: (pre' ++ post))) uf uh) :=
      greedy_cons_congr p _ _
        (fun uf' uh' => ih post uf' uh'
          (fun y hy => h y (List.mem_cons_of_mem _ hy))) uf uh
    have step2 : gEquiv (greedy (x :: p :: (pre' ++ post)) uf uh)
        (greedy (p :: x :: (pre' ++ post)) uf uh) :=
      greedy_swap_adjacent x p _ uf uh (h p (List.mem_cons_self _ _))
    rw [List.cons_append]
    exact gEquiv_trans step1 (gEquiv_symm step2)

/-- The commutation theorem: two duplicate-free rearrangements of the same
candidate list that order every conflicting pair the same way produce the
same greedy matching, up to reordering of the match list. -/
theorem greedy_perm_relorder :
    ∀ (l₁ l₂ : List Cand) (uf uh : List ℕ),
      l₁.Nodup → l₂.Nodup → l₁.Perm l₂ →
      (∀ x y, conflict x y → x ≠ y → [x, y].Sublist l₁ → [x, y].Sublist l₂) →
      gEquiv (greedy l₁ uf uh) (greedy l₂ uf uh) := by
  intro l₁
  induction l₁ with
  | nil =>
    intro l₂ uf uh _ _ hperm _
    have : l₂ = [] := hperm.symm.eq_nil
    subst this
    exact gEquiv_refl _
  | cons x rest ih =>
    intro l₂ uf uh hnd1 hnd2 hperm H
    have hxmem : x ∈ l₂ := hperm.mem_iff.1 (List.mem_cons_self _ _)
    obtain ⟨pre, post, rfl⟩ := List.append_of_mem hxmem
    obtain ⟨hpre, hxpost, hdisj⟩ := List.nodup_append.1 hnd2
    have hxnpre : x ∉ pre := fun hx => hdisj hx (List.mem_cons_self _ _)
    have hxnpost : x ∉ post := (List.nodup_cons.1 hxpost).1
    have hxnrest : x ∉ rest := (List.nodup_cons.1 hnd1).1
    have hprenc : ∀ y ∈ pre, ¬ conflict x y := by
      intro y hy hc
      have hne : x ≠ y := fun h => hxnpre (h ▸ hy)
      have hyrest : y ∈ rest := by
        have hymem : y ∈ x :: rest :=
          hperm.mem_iff.2 (List.mem_append.2 (Or.inl hy))
        rcases List.mem_cons.1 hymem with h | h
        · exact absurd h.symm hne
        · exact h
      have h1 : [x, y].Sublist (x :: rest) :=
        (List.singleton_sublist.2 hyrest).cons₂ x
      have h2 : [x, y].Sublist (pre ++ x :: post) := H x y hc hne h1
      have h3 : [y, x].Sublist (pre ++ x :: post) :=
        List.Sublist.append (List.singleton_sublist.2 hy)
          ((List.nil_sublist post).cons₂ x)
      exact not_pair_sublist_both hnd2 hne h2 h3
    have hih : ∀ uf' uh',
        gEquiv (greedy rest uf' uh') (greedy (pre ++ post) uf' uh') := by
      intro uf' uh'
      apply ih (pre ++ post) uf' uh' (List.nodup_cons.1 hnd1).2
        (List.nodup_append.2 ⟨hpre, (List.nodup_cons.1 hxpost).2,
          fun {a} hha hhb => hdisj hha (List.mem_cons_of_mem _ hhb)⟩)
        ((hperm.trans List.perm_middle).cons_inv)
      intro x' y' hc hne hsub
      have hx'rest : x' ∈ rest := hsub.subset (List.mem_cons_self _ _)
      have hy'rest : y' ∈ rest :=
        hsub.subset (List.mem_cons_of_mem _ (List.mem_cons_self _ _))
      have hx'nx : x' ≠ x := fun h => hxnrest (h ▸ hx'rest)
      have hy'nx : y' ≠ x := fun h => hxnrest (h ▸ hy'rest)
      have h2 : [x', y'].Sublist (pre ++ x :: post) :=
        H x' y' hc hne (hsub.cons x)
      have hfil := h2.filter (fun z => decide (z ≠ x))
      have hleft : ([x', y'].filter (fun z => decide (z ≠ x))) = [x', y'] := by
        simp [hx'nx, hy'nx]
      have hright : ((pre ++ x :: post).filter (fun z => decide (z ≠ x)))
          = pre ++ post := by
        rw [List.filter_append, List.filter_cons_of_neg (by simp)]
        rw [List.filter_eq_self.2 (fun a ha => by
            simp
            exact fun h => hxnpre (h ▸ ha)),
          List.filter_eq_self.2 (fun a ha => by
            simp
            exact fun h => hxnpost (h ▸ ha))]
      rw [hleft, hright] at hfil
      exact hfil
    have hcomb : gEquiv (greedy (x :: rest) uf uh)
        (greedy (x :: (pre ++ post)) uf uh) :=
      greedy_cons_congr x rest (pre ++ post) hih uf uh
    exact gEquiv_trans hcomb
      (gEquiv_symm (greedy_bubble x pre post uf uh hprenc))

/-! ### Structure of the generated candidate lists -/

/-- The window condition `|a - b| ≤ w` expressed without subtraction, as the
conjunction of the negations of the `continue` and `break` conditions. -/
def near (a b w : ℕ) : Prop := a ≤ b + w ∧ b ≤ a + w

instance (a b w : ℕ) : Decidable (near a b w) := by
  unfold near; infer_instance

theorem near_symm {a b w : ℕ} (h : near a b w) : near b a w := ⟨h.2, h.1⟩

theorem innerCands_eq_filter_map (a w : ℕ) (Bs : List ℕ)
    (h : Bs.Pairwise (· < ·)) :
    innerCands a w Bs = (Bs.filter (fun b => decide (near a b w))).map
      (fun b => (a, b, Nat.dist a b)) := by
  induction Bs with
  | nil => rfl
  | cons b t ih =>
    have hpair := (List.pairwise_cons.1 h).1
    have htail := (List.pairwise_cons.1 h).2
    rw [innerCands]
    by_cases h1 : b + w < a
    · rw [if_pos h1, List.filter_cons_of_neg (by simp [near]; omega)]
      exact ih htail
    · rw [if_neg h1]
      by_cases h2 : a + w < b
      · rw [if_pos h2, List.filter_cons_of_neg (by simp [near]; omega)]
        have hemp : t.filter (fun b => decide (near a b w)) = [] := by
          rw [List.filter_eq_nil_iff]
          intro c hc
          have := hpair c hc
          simp [near]
          omega
        rw [hemp]
        rfl
      · rw [if_neg h2, List.filter_cons_of_pos (by simp [near]; omega),
          List.map_cons, ih htail]

theorem fst_of_mem_innerCands {x : Cand} {a w : ℕ} {Bs : List ℕ}
    (h : x ∈ innerCands a w Bs) : x.1 = a := by
  induction Bs with
  | nil => cases h
  | cons b t ih =>
    rw [innerCands] at h
    by_cases h1 : b + w < a
    · rw [if_pos h1] at h
      exact ih h
    · rw [if_neg h1] at h
      by_cases h2 : a + w < b
      · rw [if_pos h2] at h
        cases h
      · rw [if_neg h2] at h
        rcases List.mem_cons.1 h with rfl | h'
        · rfl
        · exact ih h'

theorem mem_innerCands_iff {x : Cand} {a w : ℕ} {Bs : List ℕ}
    (hBs : Bs.Pairwise (· < ·)) :
    x ∈ innerCands a w Bs ↔
      x.2.1 ∈ Bs ∧ near a x.2.1 w ∧ x = (a, x.2.1, Nat.dist a x.2.1) := by
  rw [innerCands_eq_filter_map a w Bs hBs]
  constructor
  · intro h
    obtain ⟨b, hb, hx⟩ := List.mem_map.1 h
    obtain ⟨hbmem, hbnear⟩ := List.mem_filter.1 hb
    subst hx
    exact ⟨hbmem, by simpa using hbnear, rfl⟩
  · rintro ⟨hmem, hnear, hx⟩
    rw [hx]
    exact List.mem_map.2 ⟨x.2.1, List.mem_filter.2 ⟨hmem, by simpa using hnear⟩, rfl⟩

theorem fst_mem_of_mem_genCands {x : Cand} {As Bs : List ℕ} {w : ℕ}
    (h : x ∈ genCands As Bs w) : x.1 ∈ As := by
  obtain ⟨a, ha, hx⟩ := List.mem_flatMap.1 h
  rw [fst_of_mem_innerCands hx]
  exact ha

theorem mem_genCands_iff {x : Cand} {As Bs : List ℕ} {w : ℕ}
    (hBs : Bs.Pairwise (· < ·)) :
    x ∈ genCands As Bs w ↔
      x.1 ∈ As ∧ x.2.1 ∈ Bs ∧ near x.1 x.2.1 w ∧
        x = (x.1, x.2.1, Nat.dist x.1 x.2.1) := by
  constructor
  · intro h
    obtain ⟨a, ha, hx⟩ := List.mem_flatMap.1 h
    have hfst := fst_of_mem_innerCands hx
    obtain ⟨hmem, hnear, hform⟩ := (mem_innerCands_iff hBs).1 hx
    subst hfst
    exact ⟨ha, hmem, hnear, hform⟩
  · rintro ⟨ha, hb, hnear, hform⟩
    exact List.mem_flatMap.2 ⟨x.1, ha, (mem_innerCands_iff hBs).2 ⟨hb, hnear, hform⟩⟩

theorem pairwise_fst_genCands {As Bs : List ℕ} {w : ℕ}
    (hAs : As.Pairwise (· < ·)) :
    (genCands As Bs w).Pairwise (fun x y => x.1 ≤ y.1) := by
  induction As with
  | nil => exact List.Pairwise.nil
  | cons a t ih =>
    have hpair := (List.pairwise_cons.1 hAs).1
    have htail := (List.pairwise_cons.1 hAs).2
    rw [genCands, List.flatMap_cons]
    rw [List.pairwise_append]
    refine ⟨?_, ih htail, ?_⟩
    · apply List.pairwise_of_forall_mem_list
      intro x hx y hy
      rw [fst_of_mem_innerCands hx, fst_of_mem_innerCands hy]
    · intro x hx y hy
      rw [fst_of_mem_innerCands hx]
      have := @fst_mem_of_mem_genCands y t Bs w hy
      exact (hpair y.1 this).le

theorem pairwise_snd_genCands {As Bs : List ℕ} {w : ℕ}
    (hAs : As.Pairwise (· < ·)) (hBs : Bs.Pairwise (· < ·)) :
    (genCands As Bs w).Pairwise
      (fun x y => x.1 = y.1 → x.2.1 < y.2.1) := by
  induction As with
  | nil => exact List.Pairwise.nil
  | cons a t ih =>
    have hpair := (List.pairwise_cons.1 hAs).1
    have htail := (List.pairwise_cons.1 hAs).2
    rw [genCands, List.flatMap_cons]
    rw [List.pairwise_append]
    refine ⟨?_, ih htail, ?_⟩
    · rw [innerCands_eq_filter_map a w Bs hBs]
      have hsnd : (Bs.filter (fun b => decide (near a b w))).Pairwise (· < ·) :=
        hBs.filter _
      exact List.Pairwise.map _ (fun b₁ b₂ hlt => fun _ => hlt) hsnd
    · intro x hx y hy heq
      have hxa := fst_of_mem_innerCands hx
      have hyt := @fst_mem_of_mem_genCands y t Bs w hy
      have hlt : a < y.1 := hpair y.1 hyt
      rw [hxa] at heq
      omega

theorem nodup_genCands {As Bs : List ℕ} {w : ℕ}
    (hAs : As.Pairwise (· < ·)) (hBs : Bs.Pairwise (· < ·)) :
    (genCands As Bs w).Nodup := by
  apply (pairwise_snd_genCands hAs hBs).imp
  intro x y hQ heq
  have h1 : x.1 = y.1 := congrArg (fun z : Cand => z.1) heq
  have h2 : x.2.1 = y.2.1 := congrArg (fun z : Cand => z.2.1) heq
  have := hQ h1
  omega

theorem sw_sw (c : Cand) : sw (sw c) = c := rfl

/-! ### Order of conflicting pairs in the sorted candidate list -/

theorem pair_sublist_sorted_of_dlt {l : List Cand} {x y : Cand}
    (hx : x ∈ l) (hy : y ∈ l) (hne : x ≠ y) (hd : x.2.2 < y.2.2) :
    [x, y].Sublist (List.insertionSort dle l) := by
  have hx' : x ∈ List.insertionSort dle l := (List.mem_insertionSort dle).2 hx
  have hy' : y ∈ List.insertionSort dle l := (List.mem_insertionSort dle).2 hy
  rcases sublist_pair_total hx' hy' hne with h | h
  · exact h
  · have : dle y x := rel_of_pair_sublist (List.sorted_insertionSort dle l) h
    unfold dle at this
    omega

theorem pair_sublist_orig_of_deq {l : List Cand} {x y : Cand}
    (hnd : l.Nodup) (hne : x ≠ y) (hd : x.2.2 = y.2.2)
    (h : [x, y].Sublist (List.insertionSort dle l)) :
    [x, y].Sublist l := by
  have hx : x ∈ l := (List.mem_insertionSort dle).1
    (h.subset (List.mem_cons_self _ _))
  have hy : y ∈ l := (List.mem_insertionSort dle).1
    (h.subset (List.mem_cons_of_mem _ (List.mem_cons_self _ _)))
  rcases sublist_pair_total hx hy hne with h' | h'
  · exact h'
  · have hsort : [y, x].Sublist (List.insertionSort dle l) :=
      List.pair_sublist_insertionSort (le_of_eq hd.symm) h'
    have hndsort : (List.insertionSort dle l).Nodup :=
      ((List.perm_insertionSort dle l).nodup_iff).2 hnd
    exact (not_pair_sublist_both hndsort hne h hsort).elim

/-! ### The swapped candidate list is a permutation of the direct one -/

theorem flatMap_nil_fun {α β : Type} (l : List α) :
    (l.flatMap fun _ => ([] : List β)) = [] := by
  induction l with
  | nil => rfl
  | cons a t ih => rw [List.flatMap_cons, ih]; rfl

theorem flatMap_append_distrib {α β : Type} (l : List α) (g h : α → List β) :
    (l.flatMap fun a => g a ++ h a).Perm ((l.flatMap g) ++ (l.flatMap h)) := by
  induction l with
  | nil => simp
  | cons a t ih =>
    simp only [List.flatMap_cons]
    have step1 : (g a ++ h a ++ (t.flatMap fun a => g a ++ h a)).Perm
        (g a ++ h a ++ (t.flatMap g ++ t.flatMap h)) :=
      List.Perm.append_left _ ih
    refine step1.trans ?_
    rw [List.append_assoc, List.append_assoc]
    apply List.Perm.append_left
    -- h a ++ (t.flatMap g ++ t.flatMap h) ~ t.flatMap g ++ (h a ++ t.flatMap h)
    exact List.perm_append_comm_assoc _ _ _

theorem flatMap_flatMap_comm {α β γ : Type} (l₁ : List α) (l₂ : List β)
    (f : α → β → List γ) :
    (l₁.flatMap fun a => l₂.flatMap fun b => f a b).Perm
      (l₂.flatMap fun b => l₁.flatMap fun a => f a b) := by
  induction l₁ with
  | nil =>
    simp only [List.flatMap_nil]
    rw [flatMap_nil_fun]
  | cons a t ih =>
    simp only [List.flatMap_cons]
    have hsplit := flatMap_append_distrib l₂ (fun b => f a b)
      (fun b => t.flatMap fun a' => f a' b)
    exact (List.Perm.append_left _ ih).trans hsplit.symm

theorem filter_map_eq_flatMap {α β : Type} (p : α → Bool) (f : α → β)
    (l : List α) :
    (l.filter p).map f = l.flatMap (fun b => if p b then [f b] else []) := by
  induction l with
  | nil => rfl
  | cons a t ih =>
    rw [List.flatMap_cons]
    by_cases hp : p a
    · rw [List.filter_cons_of_pos hp, List.map_cons, if_pos hp, ih]
      rfl
    · rw [List.filter_cons_of_neg (by simpa using hp), if_neg hp, ih]
      rfl

theorem genCands_eq_flatMap (As Bs : List ℕ) (w : ℕ)
    (hBs : Bs.Pairwise (· < ·)) :
    genCands As Bs w = As.flatMap fun a => Bs.flatMap fun b =>
      if near a b w then [(a, b, Nat.dist a b)] else [] := by
  unfold genCands
  have hfun : ∀ a, innerCands a w Bs = Bs.flatMap fun b =>
      if near a b w then [(a, b, Nat.dist a b)] else [] := by
    intro a
    rw [innerCands_eq_filter_map a w Bs hBs, filter_map_eq_flatMap]
    have : ∀ b, (if (decide (near a b w) : Bool) then
        [((a, b, Nat.dist a b) : Cand)] else []) =
        if near a b w then [(a, b, Nat.dist a b)] else [] := by
      intro b
      by_cases h : near a b w
      · rw [if_pos (by simpa using h), if_pos h]
      · rw [if_neg (by simpa using h), if_neg h]
    exact congrArg _ (funext this)
  exact congrArg _ (funext hfun)

theorem map_sw_genCands_perm (Ef Eh : List ℕ) (w : ℕ)
    (hEf : Ef.Pairwise (· < ·)) (hEh : Eh.Pairwise (· < ·)) :
    ((genCands Eh Ef w).map sw).Perm (genCands Ef Eh w) := by
  rw [genCands_eq_flatMap Eh Ef w hEf, genCands_eq_flatMap Ef Eh w hEh]
  rw [List.map_flatMap]
  have hinner : ∀ b, ((Ef.flatMap fun a =>
      if near b a w then [((b, a, Nat.dist b a) : Cand)] else []).map sw)
      = Ef.flatMap fun a => if near a b w then [((a, b, Nat.dist a b) : Cand)] else [] := by
    intro b
    rw [List.map_flatMap]
    apply congrArg
    funext a
    by_cases h : near b a w
    · rw [if_pos h, if_pos (near_symm h)]
      simp [sw, Nat.dist_comm]
    · rw [if_neg h, if_neg (fun hh => h (near_symm hh))]
      rfl
  rw [funext hinner]
  exact flatMap_flatMap_comm Eh Ef
    (fun b a => if near a b w then [((a, b, Nat.dist a b) : Cand)] else [])

/-- The greedy matcher commutes with swapping the two sides. -/
theorem greedy_map_sw (l : List Cand) (uf uh : List ℕ) :
    greedy (l.map sw) uf uh =
      ((greedy l uh uf).1.map sw, (greedy l uh uf).2.2, (greedy l uh uf).2.1) := by
  induction l generalizing uf uh with
  | nil => rfl
  | cons c t ih =>
    rw [List.map_cons, greedy_cons, greedy_cons]
    by_cases hc : c.1 ∈ uh ∧ c.2.1 ∈ uf
    · rw [if_pos (show (sw c).1 ∈ uf ∧ (sw c).2.1 ∈ uh from ⟨hc.2, hc.1⟩),
        if_pos hc]
      rw [ih]
      rfl
    · rw [if_neg (fun hcon => hc ⟨hcon.2, hcon.1⟩), if_neg hc]
      exact ih uf uh

theorem sw_injective : Function.Injective sw := by
  intro a b h
  rw [← sw_sw a, h, sw_sw]

theorem sw_mem_genCands {z : Cand} {Ef Eh : List ℕ} {w : ℕ}
    (hEf : Ef.Pairwise (· < ·)) (hEh : Eh.Pairwise (· < ·))
    (hz : z ∈ genCands Ef Eh w) : sw z ∈ genCands Eh Ef w := by
  obtain ⟨hza, hzb, hznear, hzform⟩ := (mem_genCands_iff hEh).1 hz
  apply (mem_genCands_iff hEf).2
  have hd : z.2.2 = Nat.dist z.1 z.2.1 :=
    congrArg (fun c : Cand => c.2.2) hzform
  refine ⟨hzb, hza, near_symm hznear, ?_⟩
  show sw z = (z.2.1, z.1, Nat.dist z.2.1 z.1)
  rw [Nat.dist_comm, ← hd]
  rfl

/-- Relative order of conflicting candidate pairs is the same in the sorted
direct candidate list and in the swap of the sorted swapped candidate
list. -/
theorem relorder_swap (Ef Eh : List ℕ) (w : ℕ)
    (hEf : Ef.Pairwise (· < ·)) (hEh : Eh.Pairwise (· < ·)) :
    ∀ x y, conflict x y → x ≠ y →
      [x, y].Sublist (List.insertionSort dle (genCands Ef Eh w)) →
      [x, y].Sublist ((List.insertionSort dle (genCands Eh Ef w)).map sw) := by
  intro x y hc hne h
  have hnd1 : (genCands Ef Eh w).Nodup := nodup_genCands hEf hEh
  have hx1 : x ∈ genCands Ef Eh w :=
    (List.mem_insertionSort dle).1 (h.subset (List.mem_cons_self _ _))
  have hy1 : y ∈ genCands Ef Eh w :=
    (List.mem_insertionSort dle).1
      (h.subset (List.mem_cons_of_mem _ (List.mem_cons_self _ _)))
  have hswx : sw x ∈ genCands Eh Ef w := sw_mem_genCands hEf hEh hx1
  have hswy : sw y ∈ genCands Eh Ef w := sw_mem_genCands hEf hEh hy1
  have hswne : sw x ≠ sw y := fun hh => hne (sw_injective hh)
  have hd_le : dle x y :=
    rel_of_pair_sublist (List.sorted_insertionSort dle _) h
  rcases lt_or_eq_of_le (show x.2.2 ≤ y.2.2 from hd_le) with hdlt | hdeq
  · have hs : [sw x, sw y].Sublist
        (List.insertionSort dle (genCands Eh Ef w)) :=
      pair_sublist_sorted_of_dlt hswx hswy hswne hdlt
    have := hs.map sw
    simpa [sw_sw] using this
  · have hfinish : [sw x, sw y].Sublist (genCands Eh Ef w) →
        [x, y].Sublist ((List.insertionSort dle (genCands Eh Ef w)).map sw) := by
      intro hp
      have hstab : [sw x, sw y].Sublist
          (List.insertionSort dle (genCands Eh Ef w)) :=
        List.pair_sublist_insertionSort (le_of_eq hdeq) hp
      have := hstab.map sw
      simpa [sw_sw] using this
    have hgen1 : [x, y].Sublist (genCands Ef Eh w) :=
      pair_sublist_orig_of_deq hnd1 hne hdeq h
    rcases hc with hcl | hcr
    · -- shared left endpoint: the right endpoints are strictly ordered
      have hQ := rel_of_pair_sublist (pairwise_snd_genCands hEf hEh) hgen1 hcl
      apply hfinish
      rcases sublist_pair_total hswx hswy hswne with h' | h'
      · exact h'
      · have := rel_of_pair_sublist (pairwise_fst_genCands hEh) h'
        -- (sw y).1 ≤ (sw x).1, i.e. y.2.1 ≤ x.2.1, contradicting hQ
        have hcontra : y.2.1 ≤ x.2.1 := this
        omega
    · -- shared right endpoint: the left endpoints are strictly ordered
      have hfst : x.1 ≤ y.1 :=
        @rel_of_pair_sublist Cand (fun u v : Cand => u.1 ≤ v.1) x y
          (genCands Ef Eh w) (pairwise_fst_genCands hEf) hgen1
      have hxform := ((mem_genCands_iff hEh).1 hx1).2.2.2
      have hyform := ((mem_genCands_iff hEh).1 hy1).2.2.2
      have hfstlt : x.1 < y.1 := by
        rcases lt_or_eq_of_le hfst with hh | hh
        · exact hh
        · exfalso
          apply hne
          rw [hxform, hyform, hh, hcr]
      apply hfinish
      rcases sublist_pair_total hswx hswy hswne with h' | h'
      · exact h'
      · have hQ2 := rel_of_pair_sublist (pairwise_snd_genCands hEh hEf) h'
        -- (sw y).1 = (sw x).1 since x.2.1 = y.2.1, so y.1 < x.1, contradiction
        have : (sw y).1 = (sw x).1 := hcr.symm
        have hcontra : y.1 < x.1 := hQ2 this
        omega

/-- C5: `score` is symmetric in its two input curves for every window:
`score(A, B) = score(B, A)`.  The candidate set of the swapped call is the
swap of the direct one, every conflicting candidate pair (sharing an event
index on either side) is ordered identically by the stable distance sort of
both calls, and the greedy matcher therefore accepts the same matches (up to
order) and leaves the same events unmatched; the per-match and per-unmatched
contributions are symmetric. -/
theorem C5_score_symmetric (A B : List ℚ) (w : ℕ) :
    calculate_coverage_similarity A B w = calculate_coverage_similarity B A w := by
  unfold calculate_coverage_similarity
  cases hA : npGradient (normalize A) with
  | none =>
    cases hB : npGradient (normalize B) with
    | none => rfl
    | some gh => rfl
  | some gf =>
    cases hB : npGradient (normalize B) with
    | none => rfl
    | some gh =>
      dsimp only
      rw [min_comm gh.length gf.length]
      set n := min gf.length gh.length with hn
      set Ef := eventIdx gf n with hEf
      set Eh := eventIdx gh n with hEh
      have hEfs : Ef.Pairwise (· < ·) := pairwise_lt_eventIdx gf n
      have hEhs : Eh.Pairwise (· < ·) := pairwise_lt_eventIdx gh n
      set srt1 := List.insertionSort dle (genCands Ef Eh w) with hsrt1
      set srt2 := List.insertionSort dle (genCands Eh Ef w) with hsrt2
      have hnd1 : srt1.Nodup :=
        ((List.perm_insertionSort dle _).nodup_iff).2 (nodup_genCands hEfs hEhs)
      have hnd2 : (srt2.map sw).Nodup := by
        apply List.Nodup.map sw_injective
        exact ((List.perm_insertionSort dle _).nodup_iff).2
          (nodup_genCands hEhs hEfs)
      have hperm12 : srt1.Perm (srt2.map sw) := by
        refine (List.perm_insertionSort dle _).trans ?_
        refine ((map_sw_genCands_perm Ef Eh w hEfs hEhs).symm).trans ?_
        exact ((List.perm_insertionSort dle (genCands Eh Ef w)).symm).map sw
      have hequiv : gEquiv (greedy srt1 Ef Eh) (greedy (srt2.map sw) Ef Eh) :=
        greedy_perm_relorder srt1 (srt2.map sw) Ef Eh hnd1 hnd2 hperm12
          (relorder_swap Ef Eh w hEfs hEhs)
      rw [greedy_map_sw srt2 Ef Eh] at hequiv
      set r1 := greedy srt1 Ef Eh with hr1
      set r2 := greedy srt2 Eh Ef with hr2
      obtain ⟨hm, hu⟩ := hequiv
      have hu1 : r1.2.1 = r2.2.2 := congrArg (fun p : List ℕ × List ℕ => p.1) hu
      have hu2 : r1.2.2 = r2.2.1 := congrArg (fun p : List ℕ × List ℕ => p.2) hu
      have hnil : r1.1 = [] ↔ r2.1 = [] := by
        have hlen : r1.1.length = r2.1.length := by
          rw [hm.length_eq, List.length_map]
        constructor
        · intro hh
          apply List.eq_nil_of_length_eq_zero
          rw [← hlen, hh]
          rfl
        · intro hh
          apply List.eq_nil_of_length_eq_zero
          rw [hlen, hh]
          rfl
      by_cases h0 : w = 0 ∧ r1.1 ≠ []
      · rw [if_pos h0, if_pos (show w = 0 ∧ r2.1 ≠ [] from
          ⟨h0.1, fun hh => h0.2 (hnil.2 hh)⟩)]
      · rw [if_neg h0, if_neg (show ¬ (w = 0 ∧ r2.1 ≠ []) from
          fun hh => h0 ⟨hh.1, fun h2 => hh.2 (hnil.1 h2)⟩)]
        rw [Nat.add_comm Eh.length Ef.length]
        by_cases h1 : Ef.length + Eh.length = 0
        · rw [if_pos h1, if_pos h1]
        · rw [if_neg h1, if_neg h1]
          congr 1
          have hsum : (r1.1.map (matchTerm gf gh w)).sum =
              (r2.1.map (matchTerm gh gf w)).sum := by
            have hps := (hm.map (matchTerm gf gh w)).sum_eq
            rw [hps, List.map_map]
            apply congrArg List.sum
            apply List.map_congr_left
            intro m _
            show matchTerm gf gh w (sw m) = matchTerm gh gf w m
            unfold matchTerm sw
            ring
          rw [hsum, hu1, hu2]
          ring

end LibAFLCov
